import Mathlib

/-!
Verification of the kokorodoki streaming TTS core against its code
(`src/config.py`, `src/utils.py`, `src/models.py`, `src/run.py`).

Strings are embedded as `List Char`; machine floats that only ever hold
exact decimal configuration values (speed bounds) and audio samples are
embedded as `ℚ`; the external collaborators (the nltk sentence tokenizer,
the kokoro synthesis pipeline, `librosa.effects.trim`) are parameters of
the definitions that call them, exactly as the code treats them as opaque
callables.
-/

namespace Kokorodoki

/-- `MAX_LEN`: the maximal utterance length used throughout
`split_text_to_sentences` / `split_long_sentence` (`utils.py`, the only
value ever passed is 350). -/
def MAX_LEN : Nat := 350

/-- `MIN_LEN`: the merge threshold of `split_long_sentence`
(`utils.py`, default `min_len=50`, never overridden). -/
def MIN_LEN : Nat := 50

/-- Python's `\s` character class (ASCII range), used by the clause
pattern `[,;]\s` of `split_long_sentence`. -/
def isPyWS (c : Char) : Bool :=
  c == ' ' || c == '\t' || c == '\n' || c == '\r' || c == '\x0b' || c == '\x0c'

/-- Python's `chunk.split(" ")` (`split_by_words`, utils.py line 356):
split at every single space, keeping empty pieces. -/
def pySplitSpace : List Char → List (List Char)
  | [] => [[]]
  | c :: rest =>
    if c == ' ' then [] :: pySplitSpace rest
    else
      match pySplitSpace rest with
      | [] => [[c]]
      | w :: ws => (c :: w) :: ws

/-- Fuel-indexed form of the inner `while len(word) > max_len` loop of
`split_by_words` (utils.py lines 364-366).  Each pass drops `MAX_LEN ≥ 1`
characters, so a fuel of `w.length` always suffices
(`chopWordF_stable`); the fuel only makes the recursion structural. -/
def chopWordF : Nat → List Char → List (List Char) × List Char
  | 0, w => ([], w)
  | fuel + 1, w =>
    if MAX_LEN < w.length then
      (w.take MAX_LEN :: (chopWordF fuel (w.drop MAX_LEN)).1,
       (chopWordF fuel (w.drop MAX_LEN)).2)
    else ([], w)

/-- The inner `while len(word) > max_len` loop of `split_by_words`
(utils.py lines 364-366): returns the emitted `word[:max_len]` pieces and
the final remainder of the word. -/
def chopWord (w : List Char) : List (List Char) × List Char := chopWordF w.length w

theorem chopWordF_stable : ∀ (f1 f2 : Nat) (w : List Char), w.length ≤ f1 → w.length ≤ f2 →
    chopWordF f1 w = chopWordF f2 w := by
  intro f1
  induction f1 with
  | zero =>
    intro f2 w h1 _
    have hw : w = [] := List.length_eq_zero.mp (Nat.le_zero.mp h1)
    subst hw
    cases f2 with
    | zero => rfl
    | succ f2 => simp [chopWordF, MAX_LEN]
  | succ f1 ih =>
    intro f2 w h1 h2
    cases f2 with
    | zero =>
      have hw : w = [] := List.length_eq_zero.mp (Nat.le_zero.mp h2)
      subst hw
      simp [chopWordF, MAX_LEN]
    | succ f2 =>
      simp only [chopWordF]
      by_cases h : MAX_LEN < w.length
      · rw [if_pos h, if_pos h]
        have hM : MAX_LEN = 350 := rfl
        have hld1 : (w.drop MAX_LEN).length ≤ f1 := by
          simp only [List.length_drop]
          omega
        have hld2 : (w.drop MAX_LEN).length ≤ f2 := by
          simp only [List.length_drop]
          omega
        rw [ih f2 (w.drop MAX_LEN) hld1 hld2]
      · rw [if_neg h, if_neg h]

theorem chopWord_eq (w : List Char) :
    chopWord w =
      if MAX_LEN < w.length then
        (w.take MAX_LEN :: (chopWord (w.drop MAX_LEN)).1, (chopWord (w.drop MAX_LEN)).2)
      else ([], w) := by
  have hM : MAX_LEN = 350 := rfl
  by_cases h : MAX_LEN < w.length
  · rw [if_pos h, chopWord, chopWord]
    obtain ⟨n, hn⟩ : ∃ n, w.length = n + 1 := ⟨w.length - 1, by omega⟩
    rw [hn]
    simp only [chopWordF]
    rw [if_pos h]
    have hld : (w.drop MAX_LEN).length ≤ n := by
      simp only [List.length_drop]
      omega
    rw [chopWordF_stable n (w.drop MAX_LEN).length (w.drop MAX_LEN) hld le_rfl]
  · rw [if_neg h, chopWord]
    cases hn : w.length with
    | zero => rfl
    | succ n =>
      simp only [chopWordF]
      rw [if_neg (hn ▸ h)]

/-- The `for word in words` loop of `split_by_words` (utils.py lines
357-371), with `cur` the running `current_chunk`; the list of chunks
appended by the loop body (and the final `if current_chunk` append) is
returned in order. -/
def sbwLoop : List (List Char) → List Char → List (List Char)
  | [], cur => if cur.isEmpty then [] else [cur]
  | w :: ws, cur =>
    if MAX_LEN < cur.length + w.length + (if cur.isEmpty then 0 else 1) then
      if cur.isEmpty then
        (chopWord w).1 ++ sbwLoop ws (chopWord w).2
      else
        cur :: sbwLoop ws w
    else
      sbwLoop ws (cur ++ (if cur.isEmpty then [] else [' ']) ++ w)

/-- `split_by_words(chunk, max_len)` (utils.py lines 347-373) at the only
length bound the repository uses, `max_len = 350`. -/
def split_by_words (chunk : List Char) : List (List Char) :=
  if chunk.length ≤ MAX_LEN then [chunk]
  else sbwLoop (pySplitSpace chunk) []

/-- The clause scan of `split_long_sentence` (utils.py lines 389-403):
`re.finditer(r"[,;]\s", chunk)` yields non-overlapping two-character
matches scanned left to right, and the loop slices `chunk` into the
segments `chunk[last_pos:pos+2]`; this function fuses the scan with the
slicing, returning the list of segments (each ending with its match) and
the remaining text `chunk[last_pos:]` after the final match. -/
def clauseSegsF : Nat → List Char → List Char → List (List Char) × List Char
  | 0, acc, s => ([], acc ++ s)
  | fuel + 1, acc, s =>
    match s with
    | c :: d :: rest =>
      if (c == ',' || c == ';') && isPyWS d then
        ((acc ++ [c, d]) :: (clauseSegsF fuel [] rest).1, (clauseSegsF fuel [] rest).2)
      else clauseSegsF fuel (acc ++ [c]) (d :: rest)
    | s => ([], acc ++ s)

/-- Entry point of the clause scan; the fuel `s.length` always suffices
since every step shortens the scanned text. -/
def clauseSegs (acc s : List Char) : List (List Char) × List Char :=
  clauseSegsF s.length acc s

/-- Python's `chunks[-1] += segment` (utils.py line 400): extend the last
chunk in place.  The empty-list case is unreachable in
`split_long_sentence` (the merge branch requires `last_pos > 0`, so a
chunk was already appended); it is totalized as a one-element list. -/
def appendLast : List (List Char) → List Char → List (List Char)
  | [], seg => [seg]
  | [c], seg => [c ++ seg]
  | c :: cs, seg => c :: appendLast cs seg

/-- The `for pos in split_points` loop of `split_long_sentence` (utils.py
lines 391-403) over the already-sliced segments; `first` mirrors
`last_pos > 0` being false (i.e. this is the first segment). -/
def segLoop (first : Bool) (chunks : List (List Char)) : List (List Char) → List (List Char)
  | [] => chunks
  | seg :: rest =>
    if MAX_LEN < seg.length then segLoop false (chunks ++ split_by_words seg) rest
    else if seg.length < MIN_LEN ∧ first = false then segLoop false (appendLast chunks seg) rest
    else segLoop false (chunks ++ [seg]) rest

/-- Sum of the lengths of a list of chunks (proof-side helper). -/
def sumLen (l : List (List Char)) : Nat := (l.map List.length).sum

/-- Space-joined weight of a word list (proof-side helper): each word
costs its length plus one separator. -/
def spWeight (l : List (List Char)) : Nat := (l.map (fun w => w.length + 1)).sum

/-- Join a word list with single spaces (proof-side helper; the inverse of
`pySplitSpace`). -/
def joinSp : List (List Char) → List Char
  | [] => []
  | [w] => w
  | w :: ws => w ++ ' ' :: joinSp ws

theorem joinSp_cons2 (a b : List Char) (l : List (List Char)) :
    joinSp (a :: b :: l) = a ++ ' ' :: joinSp (b :: l) := rfl

theorem sumLen_append (a b : List (List Char)) : sumLen (a ++ b) = sumLen a + sumLen b := by
  simp [sumLen]

theorem sumLen_flatten (l : List (List Char)) : l.flatten.length = sumLen l := by
  simp [sumLen, List.length_flatten]

theorem length_joinSp_cons (w : List Char) (ws : List (List Char)) :
    (joinSp (w :: ws)).length = w.length + spWeight ws := by
  induction ws generalizing w with
  | nil => simp [joinSp, spWeight]
  | cons b l ih =>
    rw [joinSp_cons2]
    simp only [List.length_append, List.length_cons, ih b, spWeight, List.map_cons,
      List.sum_cons]
    omega

theorem chopWordF_flatten : ∀ (fuel : Nat) (w : List Char), w.length ≤ fuel →
    (chopWordF fuel w).1.flatten ++ (chopWordF fuel w).2 = w := by
  intro fuel
  induction fuel with
  | zero =>
    intro w h
    have hw : w = [] := List.length_eq_zero.mp (Nat.le_zero.mp h)
    subst hw
    rfl
  | succ fuel ih =>
    intro w h
    have hM : MAX_LEN = 350 := rfl
    simp only [chopWordF]
    by_cases hb : MAX_LEN < w.length
    · rw [if_pos hb]
      simp only [List.flatten_cons, List.append_assoc]
      rw [ih (w.drop MAX_LEN) (by simp only [List.length_drop]; omega), List.take_append_drop]
    · rw [if_neg hb]
      simp

theorem chop_flatten (w : List Char) : (chopWord w).1.flatten ++ (chopWord w).2 = w :=
  chopWordF_flatten w.length w le_rfl

theorem chop_sumLen (w : List Char) :
    sumLen (chopWord w).1 + (chopWord w).2.length = w.length := by
  have h := congrArg List.length (chop_flatten w)
  simpa [sumLen_flatten] using h

theorem chopWordF_piece_len : ∀ (fuel : Nat) (w : List Char), w.length ≤ fuel →
    ∀ p ∈ (chopWordF fuel w).1, p.length = MAX_LEN := by
  intro fuel
  induction fuel with
  | zero =>
    intro w h
    have hw : w = [] := List.length_eq_zero.mp (Nat.le_zero.mp h)
    subst hw
    simp [chopWordF]
  | succ fuel ih =>
    intro w h
    have hM : MAX_LEN = 350 := rfl
    simp only [chopWordF]
    by_cases hb : MAX_LEN < w.length
    · rw [if_pos hb]
      intro p hp
      rcases List.mem_cons.mp hp with rfl | hp
      · simp only [List.length_take]
        omega
      · exact ih (w.drop MAX_LEN) (by simp only [List.length_drop]; omega) p hp
    · rw [if_neg hb]
      simp

theorem chop_piece_len (w : List Char) : ∀ p ∈ (chopWord w).1, p.length = MAX_LEN :=
  chopWordF_piece_len w.length w le_rfl

theorem chopWordF_rest_le : ∀ (fuel : Nat) (w : List Char), w.length ≤ fuel →
    (chopWordF fuel w).2.length ≤ MAX_LEN := by
  intro fuel
  induction fuel with
  | zero =>
    intro w h
    have hw : w = [] := List.length_eq_zero.mp (Nat.le_zero.mp h)
    subst hw
    simp [chopWordF, MAX_LEN]
  | succ fuel ih =>
    intro w h
    have hM : MAX_LEN = 350 := rfl
    simp only [chopWordF]
    by_cases hb : MAX_LEN < w.length
    · rw [if_pos hb]
      exact ih (w.drop MAX_LEN) (by simp only [List.length_drop]; omega)
    · rw [if_neg hb]
      exact Nat.not_lt.mp hb

theorem chop_rest_le (w : List Char) : (chopWord w).2.length ≤ MAX_LEN :=
  chopWordF_rest_le w.length w le_rfl

theorem chop_fst_ne_nil (w : List Char) (h : MAX_LEN < w.length) : (chopWord w).1 ≠ [] := by
  rw [chopWord_eq, if_pos h]
  simp

theorem pySplit_ne_nil (s : List Char) : pySplitSpace s ≠ [] := by
  cases s with
  | nil => simp [pySplitSpace]
  | cons c rest =>
    rw [pySplitSpace]
    by_cases h : c == ' '
    · simp [h]
    · simp only [h, if_neg, Bool.false_eq_true, not_false_iff]
      cases pySplitSpace rest <;> simp

theorem pySplit_no_space (s : List Char) : ∀ w ∈ pySplitSpace s, ' ' ∉ w := by
  induction s with
  | nil => simp [pySplitSpace]
  | cons c rest ih =>
    rw [pySplitSpace]
    by_cases h : c == ' '
    · simp only [if_pos h]
      intro w hw
      rcases List.mem_cons.mp hw with rfl | hw
      · simp
      · exact ih w hw
    · have hc : c ≠ ' ' := by simpa using h
      simp only [if_neg h]
      rcases heq : pySplitSpace rest with _ | ⟨w0, ws⟩
      · intro w hw
        rcases List.mem_cons.mp hw with rfl | hw
        · simpa using fun hsp => hc hsp.symm
        · simp at hw
      · intro w hw
        rcases List.mem_cons.mp hw with rfl | hw
        · intro hsp
          rcases List.mem_cons.mp hsp with hsp | hsp
          · exact hc hsp.symm
          · exact ih w0 (heq ▸ List.mem_cons_self w0 ws) hsp
        · exact ih w (heq ▸ List.mem_cons_of_mem w0 hw)

theorem joinSp_pySplit (s : List Char) : joinSp (pySplitSpace s) = s := by
  induction s with
  | nil => rfl
  | cons c rest ih =>
    rw [pySplitSpace]
    by_cases h : c == ' '
    · have hc : c = ' ' := by simpa using h
      rw [if_pos h]
      obtain ⟨w, ws, hws⟩ := List.exists_cons_of_ne_nil (pySplit_ne_nil rest)
      rw [hws, joinSp_cons2]
      rw [hws] at ih
      simp [ih, hc]
    · rw [if_neg h]
      rcases heq : pySplitSpace rest with _ | ⟨w0, ws⟩
      · exact absurd heq (pySplit_ne_nil rest)
      · rw [heq] at ih
        cases ws with
        | nil => simpa [joinSp] using congrArg (c :: ·) ih
        | cons b l =>
          rw [joinSp_cons2]
          rw [joinSp_cons2] at ih
          simpa using congrArg (c :: ·) ih

theorem sbwLoop_nil (cur : List Char) :
    sbwLoop [] cur = if cur.isEmpty then [] else [cur] := rfl

theorem sbwLoop_cons (w : List Char) (ws : List (List Char)) (cur : List Char) :
    sbwLoop (w :: ws) cur =
      if MAX_LEN < cur.length + w.length + (if cur.isEmpty then 0 else 1) then
        if cur.isEmpty then (chopWord w).1 ++ sbwLoop ws (chopWord w).2
        else cur :: sbwLoop ws w
      else sbwLoop ws (cur ++ (if cur.isEmpty then [] else [' ']) ++ w) := rfl

theorem sbw_pieces_shape (ws : List (List Char)) :
    ∀ (cur : List Char), (∀ w ∈ ws, ' ' ∉ w) → (cur.length ≤ MAX_LEN ∨ ' ' ∉ cur) →
      ∀ p ∈ sbwLoop ws cur, p ≠ [] ∧ (p.length ≤ MAX_LEN ∨ ' ' ∉ p) := by
  induction ws with
  | nil =>
    intro cur _ hcur p hp
    cases cur with
    | nil => simp [sbwLoop_nil] at hp
    | cons c0 cs =>
      rw [sbwLoop_nil] at hp
      simp only [List.isEmpty_cons, Bool.false_eq_true, if_false] at hp
      rcases List.mem_singleton.mp hp with rfl
      exact ⟨List.cons_ne_nil c0 cs, hcur⟩
  | cons w ws ih =>
    intro cur hws hcur p hp
    have hw : ' ' ∉ w := hws w (List.mem_cons_self w ws)
    have hws' : ∀ x ∈ ws, ' ' ∉ x := fun x hx => hws x (List.mem_cons_of_mem w hx)
    rw [sbwLoop_cons] at hp
    cases cur with
    | nil =>
      simp only [List.isEmpty_nil, if_true, List.length_nil] at hp
      by_cases hbig : MAX_LEN < 0 + w.length + 0
      · rw [if_pos hbig] at hp
        rcases List.mem_append.mp hp with hp | hp
        · have hlen := chop_piece_len w p hp
          refine ⟨?_, Or.inl (le_of_eq hlen)⟩
          intro hnil
          rw [hnil] at hlen
          simp [MAX_LEN] at hlen
        · exact ih _ hws' (Or.inl (chop_rest_le w)) p hp
      · rw [if_neg hbig] at hp
        exact ih _ hws' (Or.inr (by simpa using hw)) p hp
    | cons c0 cs =>
      simp only [List.isEmpty_cons, Bool.false_eq_true, if_false] at hp
      by_cases hbig : MAX_LEN < (c0 :: cs).length + w.length + 1
      · rw [if_pos hbig] at hp
        rcases List.mem_cons.mp hp with rfl | hp
        · exact ⟨List.cons_ne_nil c0 cs, hcur⟩
        · exact ih _ hws' (Or.inr hw) p hp
      · rw [if_neg hbig] at hp
        refine ih _ hws' (Or.inl ?_) p hp
        have hlen : ((c0 :: cs) ++ [' '] ++ w).length = (c0 :: cs).length + 1 + w.length := by
          simp only [List.length_append, List.length_cons, List.length_nil] <;> omega
        omega

theorem sbw_head_le (ws : List (List Char)) :
    ∀ (cur : List Char), cur.length ≤ MAX_LEN →
      ∀ p, (sbwLoop ws cur).head? = some p → p.length ≤ MAX_LEN := by
  induction ws with
  | nil =>
    intro cur hcur p hp
    cases cur with
    | nil => simp [sbwLoop_nil] at hp
    | cons c0 cs =>
      rw [sbwLoop_nil] at hp
      simp only [List.isEmpty_cons, Bool.false_eq_true, if_false, List.head?_cons,
        Option.some_inj] at hp
      exact hp ▸ hcur
  | cons w ws ih =>
    intro cur hcur p hp
    rw [sbwLoop_cons] at hp
    cases cur with
    | nil =>
      simp only [List.isEmpty_nil, if_true, List.length_nil] at hp
      by_cases hbig : MAX_LEN < 0 + w.length + 0
      · rw [if_pos hbig] at hp
        rcases heq : (chopWord w).1 with _ | ⟨q, qs⟩
        · exact absurd heq (chop_fst_ne_nil w (by omega))
        · rw [heq] at hp
          simp only [List.cons_append, List.head?_cons, Option.some_inj] at hp
          have := chop_piece_len w q (heq ▸ List.mem_cons_self q qs)
          exact hp ▸ le_of_eq this
      · rw [if_neg hbig] at hp
        exact ih _ (by simpa using Nat.not_lt.mp hbig) p hp
    | cons c0 cs =>
      simp only [List.isEmpty_cons, Bool.false_eq_true, if_false] at hp
      by_cases hbig : MAX_LEN < (c0 :: cs).length + w.length + 1
      · rw [if_pos hbig] at hp
        simp only [List.head?_cons, Option.some_inj] at hp
        exact hp ▸ hcur
      · rw [if_neg hbig] at hp
        refine ih _ ?_ p hp
        have hlen : ((c0 :: cs) ++ [' '] ++ w).length = (c0 :: cs).length + 1 + w.length := by
          simp only [List.length_append, List.length_cons, List.length_nil] <;> omega
        omega

theorem sbw_sumLen_loop (ws : List (List Char)) :
    ∀ (cur : List Char), sumLen (sbwLoop ws cur) ≤ cur.length + spWeight ws := by
  induction ws with
  | nil =>
    intro cur
    cases cur with
    | nil => simp [sbwLoop_nil, sumLen, spWeight]
    | cons c0 cs =>
      rw [sbwLoop_nil]
      simp [List.isEmpty_cons, sumLen, spWeight]
  | cons w ws ih =>
    intro cur
    rw [sbwLoop_cons]
    have hspw : spWeight (w :: ws) = w.length + 1 + spWeight ws := by
      simp [spWeight] <;> omega
    cases cur with
    | nil =>
      simp only [List.isEmpty_nil, if_true, List.length_nil]
      by_cases hbig : MAX_LEN < 0 + w.length + 0
      · rw [if_pos hbig, sumLen_append]
        have h1 := chop_sumLen w
        have h2 := ih (chopWord w).2
        omega
      · rw [if_neg hbig]
        have h2 := ih ([] ++ [] ++ w)
        simp only [List.nil_append] at h2 ⊢
        omega
    | cons c0 cs =>
      simp only [List.isEmpty_cons, Bool.false_eq_true, if_false]
      by_cases hbig : MAX_LEN < (c0 :: cs).length + w.length + 1
      · rw [if_pos hbig]
        have h2 := ih w
        have : sumLen ((c0 :: cs) :: sbwLoop ws w) = (c0 :: cs).length + sumLen (sbwLoop ws w) := by
          simp [sumLen]
        omega
      · rw [if_neg hbig]
        have h2 := ih ((c0 :: cs) ++ [' '] ++ w)
        have hlen : ((c0 :: cs) ++ [' '] ++ w).length = (c0 :: cs).length + 1 + w.length := by
          simp only [List.length_append, List.length_cons, List.length_nil] <;> omega
        omega

theorem sbw_sumLen_start (ws : List (List Char)) :
    sumLen (sbwLoop ws []) ≤ (joinSp ws).length := by
  cases ws with
  | nil => simp [sbwLoop_nil, sumLen, joinSp]
  | cons w ws =>
    rw [sbwLoop_cons, length_joinSp_cons]
    simp only [List.isEmpty_nil, if_true, List.length_nil]
    by_cases hbig : MAX_LEN < 0 + w.length + 0
    · rw [if_pos hbig, sumLen_append]
      have h1 := chop_sumLen w
      have h2 := sbw_sumLen_loop ws (chopWord w).2
      omega
    · rw [if_neg hbig]
      have h2 := sbw_sumLen_loop ws ([] ++ [] ++ w)
      simp only [List.nil_append] at h2 ⊢
      omega

theorem joinSp_filter (P : Char → Bool) (hP : P ' ' = false) (w : List Char)
    (ws : List (List Char)) :
    (joinSp (w :: ws)).filter P = w.filter P ++ (joinSp ws).filter P := by
  cases ws with
  | nil => simp [joinSp]
  | cons b l =>
    rw [joinSp_cons2]
    simp [List.filter_append, List.filter_cons, hP]

theorem sbw_content_loop (P : Char → Bool) (hP : P ' ' = false) (ws : List (List Char)) :
    ∀ (cur : List Char),
      ((sbwLoop ws cur).flatten).filter P = cur.filter P ++ (joinSp ws).filter P := by
  induction ws with
  | nil =>
    intro cur
    cases cur with
    | nil => simp [sbwLoop_nil, joinSp]
    | cons c0 cs =>
      rw [sbwLoop_nil]
      simp [List.isEmpty_cons, joinSp]
  | cons w ws ih =>
    intro cur
    rw [sbwLoop_cons, joinSp_filter P hP]
    cases cur with
    | nil =>
      simp only [List.isEmpty_nil, if_true, List.length_nil]
      by_cases hbig : MAX_LEN < 0 + w.length + 0
      · rw [if_pos hbig]
        rw [List.flatten_append, List.filter_append, ih]
        have hw := congrArg (List.filter P) (chop_flatten w)
        rw [List.filter_append] at hw
        simp only [List.filter_nil, List.nil_append, List.append_assoc]
        rw [← List.append_assoc, hw]
      · rw [if_neg hbig]
        have h2 := ih ([] ++ [] ++ w)
        simpa using h2
    | cons c0 cs =>
      simp only [List.isEmpty_cons, Bool.false_eq_true, if_false]
      by_cases hbig : MAX_LEN < (c0 :: cs).length + w.length + 1
      · rw [if_pos hbig]
        rw [List.flatten_cons, List.filter_append, ih]
      · rw [if_neg hbig]
        rw [ih]
        simp only [List.filter_append, List.filter_cons, hP]
        split_ifs <;> simp_all

theorem sbw_oversize_pieces (c : List Char) (hc : MAX_LEN < c.length) :
    ∀ p ∈ split_by_words c, p ≠ [] ∧ (p.length ≤ MAX_LEN ∨ ' ' ∉ p) := by
  rw [split_by_words, if_neg (by omega)]
  exact sbw_pieces_shape (pySplitSpace c) [] (pySplit_no_space c) (Or.inl (by simp [MAX_LEN]))

theorem sbw_head_bound (c : List Char) :
    ∀ p, (split_by_words c).head? = some p → p.length ≤ MAX_LEN := by
  rw [split_by_words]
  by_cases h : c.length ≤ MAX_LEN
  · rw [if_pos h]
    intro p hp
    simp only [List.head?_cons, Option.some_inj] at hp
    exact hp ▸ h
  · rw [if_neg h]
    exact sbw_head_le (pySplitSpace c) [] (by simp [MAX_LEN])

theorem sbw_sumLen (c : List Char) : sumLen (split_by_words c) ≤ c.length := by
  rw [split_by_words]
  by_cases h : c.length ≤ MAX_LEN
  · rw [if_pos h]
    simp [sumLen]
  · rw [if_neg h]
    have := sbw_sumLen_start (pySplitSpace c)
    rwa [joinSp_pySplit] at this

theorem sbw_content (c : List Char) (P : Char → Bool) (hP : P ' ' = false) :
    ((split_by_words c).flatten).filter P = c.filter P := by
  rw [split_by_words]
  by_cases h : c.length ≤ MAX_LEN
  · rw [if_pos h]
    simp
  · rw [if_neg h]
    have := sbw_content_loop P hP (pySplitSpace c) []
    rwa [joinSp_pySplit, List.filter_nil, List.nil_append] at this

/-- The non-space content of a chunk (proof-side helper): `Python`'s
truthiness of the clause text once spaces are removed. -/
def nonSp (c : List Char) : List Char := c.filter (fun ch => !(ch == ' '))

theorem sbw_eq_nil_all_space (c : List Char) (h : split_by_words c = []) : nonSp c = [] := by
  have := sbw_content c (fun ch => !(ch == ' ')) (by simp)
  rw [h] at this
  simpa [nonSp] using this.symm

theorem sbw_ne_nil (c : List Char) (h : nonSp c ≠ []) : split_by_words c ≠ [] :=
  fun hc => h (sbw_eq_nil_all_space c hc)

theorem nonSp_append (a b : List Char) : nonSp (a ++ b) = nonSp a ++ nonSp b := by
  simp [nonSp]

theorem nonSp_eq_self (c : List Char) (h : ' ' ∉ c) : nonSp c = c := by
  apply List.filter_eq_self.mpr
  intro ch hch
  have hne : ch ≠ ' ' := fun heq => h (heq ▸ hch)
  simpa using hne

theorem allspace_filter (c : List Char) (h : nonSp c = []) (P : Char → Bool)
    (hP : P ' ' = false) : c.filter P = [] := by
  have hall := List.filter_eq_nil_iff.mp h
  apply List.filter_eq_nil_iff.mpr
  intro ch hch
  have hsp : ch = ' ' := by simpa using hall ch hch
  rw [hsp, hP]
  simp

/-- Step bound for the re-split pass: an oversize chunk can be rescanned
for at most twice its length steps (its replacement pieces are nonempty
and strictly shorter in total), a small chunk for one.  Used as fuel for
`fixupF`; `fixupF_stable` shows any fuel at least this bound gives the
same result. -/
def fixMeasure (l : List (List Char)) : Nat :=
  (l.map (fun c => if MAX_LEN < c.length then 2 * c.length else 1)).sum

theorem fixMeasure_cons (c : List Char) (l : List (List Char)) :
    fixMeasure (c :: l) =
      (if MAX_LEN < c.length then 2 * c.length else 1) + fixMeasure l := by
  simp [fixMeasure]

theorem fixMeasure_append (a b : List (List Char)) :
    fixMeasure (a ++ b) = fixMeasure a + fixMeasure b := by
  simp [fixMeasure]

theorem fixMeasure_le_twice (l : List (List Char)) (h : ∀ q ∈ l, q ≠ []) :
    fixMeasure l ≤ 2 * sumLen l := by
  induction l with
  | nil => simp [fixMeasure, sumLen]
  | cons q qs ih =>
    have hq : 1 ≤ q.length := List.length_pos.mpr (h q (List.mem_cons_self q qs))
    have hqs := ih (fun x hx => h x (List.mem_cons_of_mem q hx))
    rw [fixMeasure_cons]
    have hsum : sumLen (q :: qs) = q.length + sumLen qs := by simp [sumLen]
    split_ifs <;> omega

theorem fixMeasure_drop_le (l : List (List Char)) :
    fixMeasure (l.drop 1) ≤ fixMeasure l := by
  cases l with
  | nil => simp
  | cons c cs =>
    rw [List.drop_one, List.tail_cons, fixMeasure_cons]
    split_ifs <;> omega

theorem fixMeasure_split_le (c : List Char) (p : List Char) (ps : List (List Char))
    (hc : MAX_LEN < c.length) (hsp : split_by_words c = p :: ps) (rest : List (List Char)) :
    fixMeasure (ps ++ rest) + 2 ≤ fixMeasure (c :: rest) := by
  have hsum : sumLen (p :: ps) ≤ c.length := hsp ▸ sbw_sumLen c
  have hpieces : ∀ q ∈ ps, q ≠ [] := fun q hq =>
    (sbw_oversize_pieces c hc q (hsp ▸ List.mem_cons_of_mem p hq)).1
  have hp : p ≠ [] := (sbw_oversize_pieces c hc p (hsp ▸ List.mem_cons_self p ps)).1
  have hplen : 1 ≤ p.length := List.length_pos.mpr hp
  have hmu := fixMeasure_le_twice ps hpieces
  have hcons : sumLen (p :: ps) = p.length + sumLen ps := by simp [sumLen]
  rw [fixMeasure_append, fixMeasure_cons, if_pos hc]
  omega

/-- Fuel-indexed form of the final re-split pass of `split_long_sentence`
(utils.py lines 410-412): `for i, chunk in enumerate(chunks): if
len(chunk) > max_len: chunks[i:i+1] = split_by_words(chunk, max_len)`.
The list is mutated while being enumerated, so the first replacement
piece is emitted unexamined and the scan continues with the remaining
pieces; when the replacement is empty (an all-space oversize chunk) the
element shifted into the scan index is passed over unexamined, exactly
as `enumerate` over the shrunk list does (written `take 1 / drop 1`). -/
def fixupF : Nat → List (List Char) → List (List Char)
  | 0, l => l
  | fuel + 1, l =>
    match l with
    | [] => []
    | c :: rest =>
      if MAX_LEN < c.length then
        match split_by_words c with
        | [] => rest.take 1 ++ fixupF fuel (rest.drop 1)
        | p :: ps => p :: fixupF fuel (ps ++ rest)
      else c :: fixupF fuel rest

/-- The final re-split pass, at its always-sufficient fuel. -/
def fixup (l : List (List Char)) : List (List Char) := fixupF (fixMeasure l) l

theorem fixMeasure_pos (c : List Char) (rest : List (List Char)) :
    1 ≤ fixMeasure (c :: rest) := by
  rw [fixMeasure_cons]
  have hM : MAX_LEN = 350 := rfl
  split_ifs <;> omega

theorem fixMeasure_eq_zero (l : List (List Char)) (h : fixMeasure l = 0) : l = [] := by
  cases l with
  | nil => rfl
  | cons c rest =>
    have := fixMeasure_pos c rest
    omega

theorem fixupF_stable : ∀ (f1 f2 : Nat) (l : List (List Char)),
    fixMeasure l ≤ f1 → fixMeasure l ≤ f2 → fixupF f1 l = fixupF f2 l := by
  intro f1
  induction f1 with
  | zero =>
    intro f2 l h1 _
    have hl : l = [] := fixMeasure_eq_zero l (Nat.le_zero.mp h1)
    subst hl
    cases f2 with
    | zero => rfl
    | succ f2 => rfl
  | succ f1 ih =>
    intro f2 l h1 h2
    cases l with
    | nil =>
      cases f2 with
      | zero => rfl
      | succ f2 => rfl
    | cons c rest =>
      cases f2 with
      | zero =>
        have := fixMeasure_pos c rest
        omega
      | succ f2 =>
        simp only [fixupF]
        by_cases hov : MAX_LEN < c.length
        · rw [if_pos hov, if_pos hov]
          have hc : fixMeasure (c :: rest) = 2 * c.length + fixMeasure rest := by
            rw [fixMeasure_cons, if_pos hov]
          have hM : MAX_LEN = 350 := rfl
          rcases hsp : split_by_words c with _ | ⟨p, ps⟩
          · simp only [hsp]
            have hd := fixMeasure_drop_le rest
            rw [ih f2 (rest.drop 1) (by omega) (by omega)]
          · simp only [hsp]
            have hs := fixMeasure_split_le c p ps hov hsp rest
            rw [ih f2 (ps ++ rest) (by omega) (by omega)]
        · rw [if_neg hov, if_neg hov]
          have hc : fixMeasure (c :: rest) = 1 + fixMeasure rest := by
            rw [fixMeasure_cons, if_neg hov]
          rw [ih f2 rest (by omega) (by omega)]

theorem fixupF_le : ∀ (fuel : Nat) (l : List (List Char)), fixMeasure l ≤ fuel →
    (∀ c ∈ l, MAX_LEN < c.length → nonSp c ≠ []) →
    ∀ p ∈ fixupF fuel l, p.length ≤ MAX_LEN := by
  intro fuel
  induction fuel with
  | zero =>
    intro l h1 _ p hp
    have hl : l = [] := fixMeasure_eq_zero l (Nat.le_zero.mp h1)
    subst hl
    simp [fixupF] at hp
  | succ fuel ih =>
    intro l h1 H p hp
    cases l with
    | nil => simp [fixupF] at hp
    | cons c rest =>
      simp only [fixupF] at hp
      by_cases hov : MAX_LEN < c.length
      · rw [if_pos hov] at hp
        rcases hsp : split_by_words c with _ | ⟨p0, ps⟩
        · exact absurd (sbw_eq_nil_all_space c hsp) (H c (List.mem_cons_self c rest) hov)
        · simp only [hsp] at hp
          have hc : fixMeasure (c :: rest) = 2 * c.length + fixMeasure rest := by
            rw [fixMeasure_cons, if_pos hov]
          rcases List.mem_cons.mp hp with rfl | hp2
          · exact sbw_head_bound c p (by rw [hsp]; rfl)
          · refine ih (ps ++ rest) ?_ ?_ p hp2
            · have := fixMeasure_split_le c p0 ps hov hsp rest
              omega
            · intro x hx hxov
              rcases List.mem_append.mp hx with hx | hx
              · have hshape := sbw_oversize_pieces c hov x (hsp ▸ List.mem_cons_of_mem p0 hx)
                rcases hshape.2 with hle | hnsp
                · omega
                · rw [nonSp_eq_self x hnsp]
                  exact hshape.1
              · exact H x (List.mem_cons_of_mem c hx) hxov
      · rw [if_neg hov] at hp
        have hc : fixMeasure (c :: rest) = 1 + fixMeasure rest := by
          rw [fixMeasure_cons, if_neg hov]
        rcases List.mem_cons.mp hp with rfl | hp2
        · exact Nat.not_lt.mp hov
        · exact ih rest (by omega) (fun x hx => H x (List.mem_cons_of_mem c hx)) p hp2

theorem fixup_le (l : List (List Char))
    (H : ∀ c ∈ l, MAX_LEN < c.length → nonSp c ≠ []) :
    ∀ p ∈ fixup l, p.length ≤ MAX_LEN :=
  fixupF_le (fixMeasure l) l le_rfl H

theorem fixupF_content (P : Char → Bool) (hP : P ' ' = false) :
    ∀ (fuel : Nat) (l : List (List Char)), fixMeasure l ≤ fuel →
    ((fixupF fuel l).flatten).filter P = (l.flatten).filter P := by
  intro fuel
  induction fuel with
  | zero =>
    intro l h1
    have hl : l = [] := fixMeasure_eq_zero l (Nat.le_zero.mp h1)
    subst hl
    rfl
  | succ fuel ih =>
    intro l h1
    cases l with
    | nil => rfl
    | cons c rest =>
      simp only [fixupF]
      by_cases hov : MAX_LEN < c.length
      · rw [if_pos hov]
        have hc : fixMeasure (c :: rest) = 2 * c.length + fixMeasure rest := by
          rw [fixMeasure_cons, if_pos hov]
        have hM : MAX_LEN = 350 := rfl
        rcases hsp : split_by_words c with _ | ⟨p0, ps⟩
        · simp only [hsp]
          have hall : nonSp c = [] := sbw_eq_nil_all_space c hsp
          have hd := fixMeasure_drop_le rest
          rw [List.flatten_append, List.filter_append, ih (rest.drop 1) (by omega),
            List.flatten_cons, List.filter_append, allspace_filter c hall P hP,
            List.nil_append, ← List.filter_append, ← List.flatten_append,
            List.take_append_drop]
        · simp only [hsp]
          have hs := fixMeasure_split_le c p0 ps hov hsp rest
          have hcont := sbw_content c P hP
          rw [hsp] at hcont
          have hcont2 : p0.filter P ++ (ps.flatten).filter P = c.filter P := by
            simpa [List.flatten_cons, List.filter_append] using hcont
          rw [List.flatten_cons, List.filter_append, ih (ps ++ rest) (by omega),
            List.flatten_append, List.filter_append, ← List.append_assoc, hcont2,
            List.flatten_cons, List.filter_append]
      · rw [if_neg hov]
        have hc : fixMeasure (c :: rest) = 1 + fixMeasure rest := by
          rw [fixMeasure_cons, if_neg hov]
        simp only [List.flatten_cons, List.filter_append, ih rest (by omega)]

theorem fixup_content (P : Char → Bool) (hP : P ' ' = false) (l : List (List Char)) :
    ((fixup l).flatten).filter P = (l.flatten).filter P :=
  fixupF_content P hP (fixMeasure l) l le_rfl

/-- A chunk is safe for the final re-split pass: if it is oversize it has
some non-space content (so its re-split is nonempty).  Every chunk built
by `split_long_sentence` before the pass satisfies this. -/
def chunkOK (c : List Char) : Prop := MAX_LEN < c.length → nonSp c ≠ []

theorem sbw_all_OK (c : List Char) : ∀ p ∈ split_by_words c, chunkOK p := by
  intro p hp hover
  by_cases h : c.length ≤ MAX_LEN
  · rw [split_by_words, if_pos h] at hp
    rcases List.mem_singleton.mp hp with rfl
    omega
  · have hshape := sbw_oversize_pieces c (by omega) p hp
    rcases hshape.2 with hle | hnsp
    · omega
    · rw [nonSp_eq_self p hnsp]
      exact hshape.1

theorem appendLast_nil (s : List Char) : appendLast [] s = [s] := rfl

theorem appendLast_single (c s : List Char) : appendLast [c] s = [c ++ s] := rfl

theorem appendLast_cons2 (c d : List Char) (l : List (List Char)) (s : List Char) :
    appendLast (c :: d :: l) s = c :: appendLast (d :: l) s := rfl

theorem appendLast_flatten (l : List (List Char)) (s : List Char) :
    (appendLast l s).flatten = l.flatten ++ s := by
  induction l with
  | nil => simp [appendLast_nil]
  | cons c cs ih =>
    cases cs with
    | nil => simp [appendLast_single]
    | cons d ds =>
      rw [appendLast_cons2]
      simp only [List.flatten_cons, ih, List.append_assoc]

theorem appendLast_length (l : List (List Char)) (s : List Char) :
    (appendLast l s).length = if l.isEmpty then 1 else l.length := by
  induction l with
  | nil => rfl
  | cons c cs ih =>
    cases cs with
    | nil => rfl
    | cons d ds =>
      rw [appendLast_cons2]
      simp only [List.length_cons, ih, List.isEmpty_cons, Bool.false_eq_true, if_false]

theorem appendLast_OK (l : List (List Char)) (s : List Char) (hs : nonSp s ≠ [])
    (H : ∀ c ∈ l, chunkOK c) : ∀ c ∈ appendLast l s, chunkOK c := by
  induction l with
  | nil =>
    intro c hc
    rcases List.mem_singleton.mp hc with rfl
    intro _
    exact hs
  | cons c0 cs ih =>
    cases cs with
    | nil =>
      intro c hc
      rcases List.mem_singleton.mp hc with rfl
      intro _
      rw [nonSp_append]
      intro hemp
      exact hs (List.append_eq_nil.mp hemp).2
    | cons d ds =>
      rw [appendLast_cons2]
      intro c hc
      rcases List.mem_cons.mp hc with rfl | hc
      · exact H c (List.mem_cons_self c _)
      · exact ih (fun x hx => H x (List.mem_cons_of_mem _ hx)) c hc

theorem clauseSegsF_flatten : ∀ (fuel : Nat) (acc s : List Char), s.length ≤ fuel →
    (clauseSegsF fuel acc s).1.flatten ++ (clauseSegsF fuel acc s).2 = acc ++ s := by
  intro fuel
  induction fuel with
  | zero =>
    intro acc s _
    simp [clauseSegsF]
  | succ fuel ih =>
    intro acc s hs
    match s with
    | [] => simp [clauseSegsF]
    | [c] => simp [clauseSegsF]
    | c :: d :: rest =>
      simp only [clauseSegsF]
      by_cases hcond : ((c == ',' || c == ';') && isPyWS d) = true
      · rw [if_pos hcond]
        simp only [List.flatten_cons, List.append_assoc]
        rw [ih [] rest (by simp at hs; omega)]
        simp
      · rw [if_neg hcond]
        rw [ih (acc ++ [c]) (d :: rest) (by simp at hs ⊢; omega)]
        simp

theorem clauseSegs_flatten (acc s : List Char) :
    (clauseSegs acc s).1.flatten ++ (clauseSegs acc s).2 = acc ++ s :=
  clauseSegsF_flatten s.length acc s le_rfl

theorem clauseSegsF_marks : ∀ (fuel : Nat) (acc s : List Char), s.length ≤ fuel →
    ∀ seg ∈ (clauseSegsF fuel acc s).1, nonSp seg ≠ [] := by
  intro fuel
  induction fuel with
  | zero =>
    intro acc s _
    simp [clauseSegsF]
  | succ fuel ih =>
    intro acc s hs
    match s with
    | [] => simp [clauseSegsF]
    | [c] => simp [clauseSegsF]
    | c :: d :: rest =>
      simp only [clauseSegsF]
      by_cases hcond : ((c == ',' || c == ';') && isPyWS d) = true
      · rw [if_pos hcond]
        intro seg hseg
        rcases List.mem_cons.mp hseg with rfl | hseg
        · have hc : c = ',' ∨ c = ';' := by
            have h1 : (c == ',' || c == ';') = true := by
              have h2 := hcond
              simp only [Bool.and_eq_true] at h2
              exact h2.1
            rcases Bool.or_eq_true_iff.mp h1 with h | h
            · exact Or.inl (by simpa using h)
            · exact Or.inr (by simpa using h)
          have hcsp : c ≠ ' ' := by rcases hc with rfl | rfl <;> simp
          rw [nonSp_append]
          intro hemp
          have hnil := (List.append_eq_nil.mp hemp).2
          rw [nonSp] at hnil
          simp only [List.filter_cons] at hnil
          rw [if_pos (by simpa using hcsp)] at hnil
          cases hnil
        · exact ih [] rest (by simp at hs; omega) seg hseg
      · rw [if_neg hcond]
        exact ih (acc ++ [c]) (d :: rest) (by simp at hs ⊢; omega)

theorem clauseSegs_marks (acc s : List Char) :
    ∀ seg ∈ (clauseSegs acc s).1, nonSp seg ≠ [] :=
  clauseSegsF_marks s.length acc s le_rfl

theorem segLoop_flatten (P : Char → Bool) (hP : P ' ' = false) :
    ∀ (segs : List (List Char)) (first : Bool) (chunks : List (List Char)),
      ((segLoop first chunks segs).flatten).filter P =
        (chunks.flatten).filter P ++ (segs.flatten).filter P := by
  intro segs
  induction segs with
  | nil =>
    intro first chunks
    simp [segLoop]
  | cons seg rest ih =>
    intro first chunks
    rw [segLoop]
    by_cases h1 : MAX_LEN < seg.length
    · rw [if_pos h1, ih]
      rw [List.flatten_append, List.filter_append, sbw_content seg P hP]
      simp [List.flatten_cons, List.filter_append, List.append_assoc]
    · rw [if_neg h1]
      by_cases h2 : seg.length < MIN_LEN ∧ first = false
      · rw [if_pos h2, ih, appendLast_flatten]
        simp [List.filter_append, List.flatten_cons, List.append_assoc]
      · rw [if_neg h2, ih]
        simp [List.flatten_append, List.filter_append, List.flatten_cons, List.append_assoc]

theorem segLoop_OK :
    ∀ (segs : List (List Char)) (first : Bool) (chunks : List (List Char)),
      (∀ c ∈ chunks, chunkOK c) → (∀ seg ∈ segs, nonSp seg ≠ []) →
      ∀ c ∈ segLoop first chunks segs, chunkOK c := by
  intro segs
  induction segs with
  | nil =>
    intro f chunks H _ c hc
    exact H c hc
  | cons seg rest ih =>
    intro f chunks H Hseg c hc
    have hseg : nonSp seg ≠ [] := Hseg seg (List.mem_cons_self seg rest)
    have Hrest : ∀ x ∈ rest, nonSp x ≠ [] := fun x hx => Hseg x (List.mem_cons_of_mem _ hx)
    rw [segLoop] at hc
    by_cases h1 : MAX_LEN < seg.length
    · rw [if_pos h1] at hc
      refine ih false _ ?_ Hrest c hc
      intro x hx
      rcases List.mem_append.mp hx with hx | hx
      · exact H x hx
      · exact sbw_all_OK seg x hx
    · rw [if_neg h1] at hc
      by_cases h2 : seg.length < MIN_LEN ∧ f = false
      · rw [if_pos h2] at hc
        exact ih false _ (appendLast_OK chunks seg hseg H) Hrest c hc
      · rw [if_neg h2] at hc
        refine ih false _ ?_ Hrest c hc
        intro x hx
        rcases List.mem_append.mp hx with hx | hx
        · exact H x hx
        · rcases List.mem_singleton.mp hx with rfl
          intro hover
          omega

theorem segLoop_sameLen :
    ∀ (segs : List (List Char)) (first : Bool) (l l' : List (List Char)),
      l.length = l'.length →
      (segLoop first l segs).length = (segLoop first l' segs).length := by
  intro segs
  induction segs with
  | nil =>
    intro f l l' h
    exact h
  | cons seg rest ih =>
    intro f l l' h
    rw [segLoop, segLoop]
    by_cases h1 : MAX_LEN < seg.length
    · rw [if_pos h1, if_pos h1]
      exact ih false _ _ (by simp [h])
    · rw [if_neg h1, if_neg h1]
      by_cases h2 : seg.length < MIN_LEN ∧ f = false
      · rw [if_pos h2, if_pos h2]
        refine ih false _ _ ?_
        have hiso : l.isEmpty = l'.isEmpty := by
          rcases l with _ | ⟨a, as⟩ <;> rcases l' with _ | ⟨b, bs⟩ <;> simp_all
        rw [appendLast_length, appendLast_length, hiso, h]
      · rw [if_neg h2, if_neg h2]
        exact ih false _ _ (by simp [h])

/-- The chunk list built by `split_long_sentence` before its final
re-split pass (utils.py lines 381-408): the clause segments processed by
the merge loop, followed by `split_by_words` of the remaining text after
the last clause match when that remainder is nonempty.  When there are no
clause matches the segment list is empty and the remainder is the whole
sentence, which reproduces the `else: chunks.extend(split_by_words(chunk,
max_len))` branch. -/
def slsChunks (s : List Char) : List (List Char) :=
  if (clauseSegs [] s).2.isEmpty then segLoop true [] (clauseSegs [] s).1
  else segLoop true [] (clauseSegs [] s).1 ++ split_by_words (clauseSegs [] s).2

/-- `split_long_sentence(sentence, max_len=350, min_len=50)` (utils.py
lines 376-413): returns `[sentence]` when it already fits, otherwise
splits at clause boundaries, merges short non-leading segments, word-splits
oversize pieces, re-splits anything still oversize, and drops empty
chunks. -/
def split_long_sentence (s : List Char) : List (List Char) :=
  if s.length ≤ MAX_LEN then [s]
  else (fixup (slsChunks s)).filter (fun c => !c.isEmpty)

/-- `split_text_to_sentences(text, language)` (utils.py lines 437-449)
after the external `nltk.sent_tokenize` call: the tokenizer's sentence
list is the input (the tokenizer itself is an external collaborator), and
each sentence longer than 350 characters is replaced by its
`split_long_sentence` pieces. -/
def split_text_to_sentences (sentences : List (List Char)) : List (List Char) :=
  (sentences.map (fun s => if 350 < s.length then split_long_sentence s else [s])).flatten

theorem flatten_filter_nonempty (l : List (List Char)) :
    (l.filter (fun c => !c.isEmpty)).flatten = l.flatten := by
  induction l with
  | nil => rfl
  | cons c cs ih =>
    cases c with
    | nil => simpa [List.filter_cons] using ih
    | cons a as => simp [List.filter_cons, ih]

theorem slsChunks_OK (s : List Char) : ∀ c ∈ slsChunks s, chunkOK c := by
  intro c hc
  rw [slsChunks] at hc
  by_cases h : (clauseSegs [] s).2.isEmpty
  · rw [if_pos h] at hc
    exact segLoop_OK _ true [] (by simp) (clauseSegs_marks [] s) c hc
  · rw [if_neg h] at hc
    rcases List.mem_append.mp hc with hc | hc
    · exact segLoop_OK _ true [] (by simp) (clauseSegs_marks [] s) c hc
    · exact sbw_all_OK _ c hc

theorem slsChunks_content (s : List Char) (P : Char → Bool) (hP : P ' ' = false) :
    ((slsChunks s).flatten).filter P = s.filter P := by
  have hcs := clauseSegs_flatten [] s
  rw [List.nil_append] at hcs
  rw [slsChunks]
  by_cases h : (clauseSegs [] s).2.isEmpty
  · rw [if_pos h]
    rw [segLoop_flatten P hP]
    have hrem : (clauseSegs [] s).2 = [] := by
      simpa [List.isEmpty_iff] using h
    rw [hrem, List.append_nil] at hcs
    simp only [List.flatten_nil, List.filter_nil, List.nil_append]
    rw [hcs]
  · rw [if_neg h]
    rw [List.flatten_append, List.filter_append, segLoop_flatten P hP,
      sbw_content _ P hP]
    simp only [List.flatten_nil, List.filter_nil, List.nil_append]
    rw [← List.filter_append, hcs]

theorem sls_pieces (s : List Char) (hs : MAX_LEN < s.length) :
    ∀ p ∈ split_long_sentence s, p ≠ [] ∧ p.length ≤ MAX_LEN := by
  intro p hp
  rw [split_long_sentence, if_neg (by omega)] at hp
  rw [List.mem_filter] at hp
  constructor
  · simpa using hp.2
  · exact fixup_le (slsChunks s) (fun c hc hov => slsChunks_OK s c hc hov) p hp.1

theorem sls_content (s : List Char) (P : Char → Bool) (hP : P ' ' = false) :
    ((split_long_sentence s).flatten).filter P = s.filter P := by
  rw [split_long_sentence]
  by_cases h : s.length ≤ MAX_LEN
  · rw [if_pos h]
    simp
  · rw [if_neg h]
    rw [flatten_filter_nonempty, fixup_content P hP, slsChunks_content s P hP]

/-- C2: every string returned by `split_text_to_sentences` is non-empty
and at most `MAX_LEN = 350` characters long, for every sentence list the
external tokenizer can return (its sentences are non-empty text spans);
in particular every piece of `split_long_sentence` on an oversize
sentence - including pieces created by merging a short segment into its
predecessor and then re-splitting - is non-empty and within the bound. -/
theorem C2_segment_length_bounds :
    (∀ s : List Char, MAX_LEN < s.length →
      ∀ p ∈ split_long_sentence s, p ≠ [] ∧ p.length ≤ MAX_LEN) ∧
    (∀ sentences : List (List Char), (∀ t ∈ sentences, t ≠ []) →
      ∀ p ∈ split_text_to_sentences sentences, p ≠ [] ∧ p.length ≤ MAX_LEN) := by
  constructor
  · exact fun s hs => sls_pieces s hs
  · intro sentences hne p hp
    rw [split_text_to_sentences, List.mem_flatten] at hp
    obtain ⟨l, hl, hpl⟩ := hp
    rw [List.mem_map] at hl
    obtain ⟨t, ht, rfl⟩ := hl
    by_cases h : 350 < t.length
    · rw [if_pos h] at hpl
      exact sls_pieces t (by simpa [MAX_LEN] using h) p hpl
    · rw [if_neg h] at hpl
      rcases List.mem_singleton.mp hpl with rfl
      refine ⟨hne p ht, ?_⟩
      have hM : MAX_LEN = 350 := rfl
      omega

set_option maxRecDepth 10000 in
/-- Witness for C2 at concrete inputs: a 351-character sentence and a
one-sentence tokenizer output. -/
theorem C2_segment_length_bounds_witness :
    (MAX_LEN < (List.replicate 351 'q').length ∧
      ∀ p ∈ split_long_sentence (List.replicate 351 'q'), p ≠ [] ∧ p.length ≤ MAX_LEN) ∧
    ((∀ t ∈ ["Hello there.".toList], t ≠ []) ∧
      ∀ p ∈ split_text_to_sentences ["Hello there.".toList], p ≠ [] ∧ p.length ≤ MAX_LEN) :=
  ⟨⟨by decide, C2_segment_length_bounds.1 _ (by decide)⟩,
   ⟨by decide, C2_segment_length_bounds.2 _ (by decide)⟩⟩

/-- C6: segmentation loses no content - concatenating the pieces of
`split_long_sentence` (and of `split_text_to_sentences` over the
tokenizer's sentences) and deleting all whitespace yields exactly the
input with all whitespace deleted. -/
theorem C6_content_preserved :
    (∀ s : List Char,
      ((split_long_sentence s).flatten).filter (fun c => !(isPyWS c)) =
        s.filter (fun c => !(isPyWS c))) ∧
    (∀ sentences : List (List Char),
      ((split_text_to_sentences sentences).flatten).filter (fun c => !(isPyWS c)) =
        (sentences.flatten).filter (fun c => !(isPyWS c))) := by
  have hP : (fun c => !(isPyWS c)) ' ' = false := by decide
  have hbranch : ∀ t : List Char,
      (((if 350 < t.length then split_long_sentence t else [t]).flatten).filter
        (fun c => !(isPyWS c))) = t.filter (fun c => !(isPyWS c)) := by
    intro t
    by_cases h : 350 < t.length
    · rw [if_pos h]
      exact sls_content t _ hP
    · rw [if_neg h]
      simp
  constructor
  · exact fun s => sls_content s _ hP
  · intro sentences
    induction sentences with
    | nil => rfl
    | cons t ts ih =>
      rw [split_text_to_sentences, List.map_cons, List.flatten_cons, List.flatten_append,
        List.filter_append, hbranch t, List.flatten_cons, List.filter_append]
      rw [split_text_to_sentences] at ih
      rw [ih]

/-- The C5 counterexample input: a short leading clause followed by one
very long word. -/
def shortLeadInput : List Char := "Hi, ".toList ++ List.replicate 400 'x'

set_option maxRecDepth 10000 in
/-- C5 is false as stated: on `"Hi, " ++ 'x'*400` the first piece
returned by `split_long_sentence` is the four-character lead fragment
`"Hi, "`, shorter than `MIN_LEN = 50`, and it is followed by further
pieces - the leading short segment is never merged (the code merges only
when `last_pos > 0`). -/
theorem C5_counterexample :
    ((split_long_sentence shortLeadInput).head?.map List.length) = some 4 ∧
    4 < MIN_LEN ∧ 2 ≤ (split_long_sentence shortLeadInput).length := by
  decide

/-- C5 amended: a clause segment shorter than `MIN_LEN` that is not the
leading segment (and not itself over `MAX_LEN`) is merged into the
preceding chunk by the segment loop rather than emitted as a new piece,
so it does not increase the number of chunks; the leading fragment,
word-split pieces and the trailing remainder may remain short. -/
theorem C5_merge_nonleading :
    ∀ (chunks : List (List Char)) (seg : List Char) (rest : List (List Char)),
      chunks ≠ [] → seg.length < MIN_LEN → seg.length ≤ MAX_LEN →
      segLoop false chunks (seg :: rest) = segLoop false (appendLast chunks seg) rest ∧
      (segLoop false chunks (seg :: rest)).length = (segLoop false chunks rest).length := by
  intro chunks seg rest hne h1 h2
  have heq : segLoop false chunks (seg :: rest) = segLoop false (appendLast chunks seg) rest := by
    rw [segLoop, if_neg (by omega), if_pos ⟨h1, rfl⟩]
  refine ⟨heq, ?_⟩
  rw [heq]
  apply segLoop_sameLen
  rw [appendLast_length]
  rcases chunks with _ | ⟨c, cs⟩
  · exact absurd rfl hne
  · simp [List.isEmpty_cons]

/-- Witness for the amended C5 at a concrete state: a short non-leading
clause segment is merged into the previous chunk. -/
theorem C5_merge_nonleading_witness :
    ((["Alpha beta.".toList] : List (List Char)) ≠ [] ∧
      ("yes, ".toList).length < MIN_LEN ∧ ("yes, ".toList).length ≤ MAX_LEN) ∧
    (segLoop false ["Alpha beta.".toList] ["yes, ".toList] =
        segLoop false (appendLast ["Alpha beta.".toList] "yes, ".toList) [] ∧
      (segLoop false ["Alpha beta.".toList] ["yes, ".toList]).length =
        (segLoop false ["Alpha beta.".toList] []).length) :=
  ⟨by decide, C5_merge_nonleading _ _ _ (by decide) (by decide) (by decide)⟩

/-- `get_language_map()` (utils.py lines 18-30): the nine language codes
with their display names; `change_language` validates against its keys. -/
def get_language_map : List (String × String) :=
  [("a", "American English"), ("b", "British English"), ("e", "Spanish"),
   ("f", "French"), ("h", "Hindi"), ("i", "Italian"),
   ("p", "Brazilian Portuguese"), ("j", "Japanese"), ("z", "Mandarin Chinese")]

/-- `get_voices()` (utils.py lines 48-105): all 54 known voice ids. -/
def get_voices : List String :=
  ["af_alloy", "af_aoede", "af_bella", "af_heart", "af_jessica", "af_kore",
   "af_nicole", "af_nova", "af_river", "af_sarah", "af_sky",
   "am_adam", "am_echo", "am_eric", "am_fenrir", "am_liam", "am_michael",
   "am_onyx", "am_puck", "am_santa",
   "bf_alice", "bf_emma", "bf_isabella", "bf_lily",
   "bm_daniel", "bm_fable", "bm_george", "bm_lewis",
   "ef_dora", "em_alex", "em_santa",
   "ff_siwis",
   "hf_alpha", "hf_beta", "hm_omega", "hm_psi",
   "if_sara", "im_nicola",
   "jf_alpha", "jf_gongitsune", "jf_nezumi", "jf_tebukuro", "jm_kumo",
   "pf_dora", "pm_alex", "pm_santa",
   "zf_xiaobei", "zf_xiaoni", "zf_xiaoxiao", "zf_xiaoyi",
   "zm_yunjian", "zm_yunxi", "zm_yunxia", "zm_yunyang"]

/-- `get_nltk_language_map()` (utils.py lines 137-146). -/
def get_nltk_language_map : List (String × String) :=
  [("a", "english"), ("b", "english"), ("e", "spanish"), ("f", "french"),
   ("i", "italian"), ("p", "portuguese")]

/-- `get_nltk_language(language_code)` (utils.py lines 149-157): first
matching entry, defaulting to english. -/
def get_nltk_language (code : String) : String :=
  ((get_nltk_language_map.find? (fun p => p.1 == code)).map Prod.snd).getD "english"

/-- Python's `str.startswith`, over the underlying character lists. -/
def pyStartsWith (s t : String) : Bool := t.toList.isPrefixOf s.toList

/-- `MIN_SPEED` (config.py line 4). -/
def MIN_SPEED : ℚ := 1 / 2

/-- `MAX_SPEED` (config.py line 5). -/
def MAX_SPEED : ℚ := 2

/-- `SAMPLE_RATE` (config.py line 3): the fixed Kokoro-82M rate. -/
def SAMPLE_RATE : Nat := 24000

/-- The mutable configuration of a `TTSPlayer` (models.py lines 28-53):
language code, voice id, speed, verbosity, plus the language the
synthesis pipeline was created for and the nltk language, both kept in
sync by `change_language`. -/
structure PlayerConfig where
  language : String
  voice : String
  speed : ℚ
  verbose : Bool
  pipelineLang : String
  nltkLanguage : String
deriving DecidableEq

/-- `TTSPlayer.change_voice` (models.py lines 70-75): accept any member
of the known voice list, otherwise leave the state unchanged. -/
def change_voice (st : PlayerConfig) (newVoice : String) : Bool × PlayerConfig :=
  if newVoice ∈ get_voices then (true, { st with voice := newVoice })
  else (false, st)

/-- The daemon's `!voice <id>` command (run.py lines 248-252): the
argument is forwarded unchanged to `change_voice`. -/
def daemon_voice_command (st : PlayerConfig) (arg : String) : Bool × PlayerConfig :=
  change_voice st arg

/-- `TTSPlayer.change_speed` (models.py lines 77-82). -/
def change_speed (st : PlayerConfig) (newSpeed : ℚ) : Bool × PlayerConfig :=
  if MIN_SPEED ≤ newSpeed ∧ newSpeed ≤ MAX_SPEED then (true, { st with speed := newSpeed })
  else (false, st)

/-- `TTSPlayer.change_language` (models.py lines 55-68): on a known code
the pipeline is recreated for the new language, the voice is replaced by
`next(voice for voice in get_voices() if voice.startswith(new_lang))`
only when the current voice does not already start with the code, and the
nltk language is refreshed; unknown codes leave everything unchanged.
The `next(...)` call is modelled by `find?`; it cannot fail because every
known code has at least one voice (`find_voice_for_lang`). -/
def change_language (st : PlayerConfig) (newLang : String) : Bool × PlayerConfig :=
  if newLang ∈ get_language_map.map Prod.fst then
    (true,
      { (if pyStartsWith st.voice newLang then { st with language := newLang, pipelineLang := newLang }
         else
           match get_voices.find? (fun v => pyStartsWith v newLang) with
           | some v => (change_voice { st with language := newLang, pipelineLang := newLang } v).2
           | none => { st with language := newLang, pipelineLang := newLang }) with
        nltkLanguage := get_nltk_language newLang })
  else (false, st)

/-- The default player state built by `main.py` / `config.py`
(`DEFAULT_LANGUAGE "a"`, `DEFAULT_VOICE "af_heart"`, `DEFAULT_SPEED 1.2`). -/
def examplePlayer : PlayerConfig :=
  { language := "a", voice := "af_heart", speed := 6 / 5, verbose := false,
    pipelineLang := "a", nltkLanguage := "english" }

/-- C4 is false as stated: `change_voice` only checks membership in the
full voice list and never compares against the current language - with
language `"a"`, the request `"bf_alice"` (a British voice, so its id does
not start with the current language code) succeeds and changes the
voice. -/
theorem C4_counterexample :
    (change_voice examplePlayer "bf_alice").1 = true ∧
    (change_voice examplePlayer "bf_alice").2.voice = "bf_alice" ∧
    examplePlayer.language = "a" ∧
    pyStartsWith "bf_alice" examplePlayer.language = false := by
  decide

/-- C4 amended: `change_voice` (and hence the daemon's `!voice` command)
succeeds exactly when the requested id is one of the known voices,
regardless of the current language; on success only the voice field is
replaced, and an unknown id (such as `"xx_bad"`) leaves the player
unchanged. -/
theorem C4_voice_validation :
    ∀ (st : PlayerConfig) (v : String),
      ((change_voice st v).1 = true ↔ v ∈ get_voices) ∧
      (change_voice st v).2 = (if v ∈ get_voices then { st with voice := v } else st) ∧
      daemon_voice_command st v = change_voice st v := by
  intro st v
  by_cases h : v ∈ get_voices <;>
    simp [change_voice, daemon_voice_command, h]

/-- C8: `change_speed` succeeds and installs the new value exactly when
`MIN_SPEED ≤ v ≤ MAX_SPEED` (0.5 to 2.0); otherwise it reports failure
and the whole configuration - speed, language, voice, verbosity - is left
untouched.  `change_speed` is a plain synchronous method: no thread is
involved in the check. -/
theorem C8_speed_validation :
    ∀ (st : PlayerConfig) (v : ℚ),
      ((change_speed st v).1 = true ↔ (MIN_SPEED ≤ v ∧ v ≤ MAX_SPEED)) ∧
      (change_speed st v).2 =
        (if MIN_SPEED ≤ v ∧ v ≤ MAX_SPEED then { st with speed := v } else st) ∧
      (change_speed st v).2.language = st.language ∧
      (change_speed st v).2.voice = st.voice ∧
      (change_speed st v).2.verbose = st.verbose ∧
      (change_speed st v).2.pipelineLang = st.pipelineLang := by
  intro st v
  by_cases h : MIN_SPEED ≤ v ∧ v ≤ MAX_SPEED <;> simp [change_speed, h]

theorem find_voice_for_lang (L : String) (h : L ∈ get_language_map.map Prod.fst) :
    (get_voices.find? (fun v => pyStartsWith v L)).isSome = true := by
  have hL : L = "a" ∨ L = "b" ∨ L = "e" ∨ L = "f" ∨ L = "h" ∨ L = "i" ∨
      L = "p" ∨ L = "j" ∨ L = "z" := by
    simpa [get_language_map] using h
  rcases hL with rfl | rfl | rfl | rfl | rfl | rfl | rfl | rfl | rfl <;> decide

/-- C10: `change_language` succeeds exactly on the nine known codes; on
success the resulting voice always starts with the new code - kept
unchanged when it already matches, otherwise replaced by the first known
voice with that code - and the pipeline language follows the new code; on
an unknown code everything (language, voice, pipeline) is unchanged. -/
theorem C10_language_validation :
    ∀ (st : PlayerConfig) (L : String),
      ((change_language st L).1 = true ↔ L ∈ get_language_map.map Prod.fst) ∧
      (L ∈ get_language_map.map Prod.fst →
        pyStartsWith (change_language st L).2.voice L = true ∧
        (pyStartsWith st.voice L = true → (change_language st L).2.voice = st.voice) ∧
        (change_language st L).2.language = L ∧
        (change_language st L).2.pipelineLang = L) ∧
      (L ∉ get_language_map.map Prod.fst → (change_language st L).2 = st) := by
  intro st L
  by_cases h : L ∈ get_language_map.map Prod.fst
  · refine ⟨by simp [change_language, h], fun _ => ?_, fun hn => absurd h hn⟩
    by_cases hv : pyStartsWith st.voice L
    · simp [change_language, h, hv]
    · obtain ⟨v, hfv⟩ := Option.isSome_iff_exists.mp (find_voice_for_lang L h)
      have hvpre : pyStartsWith v L = true := List.find?_some (p := fun x => pyStartsWith x L) hfv
      have hvmem : v ∈ get_voices := List.mem_of_find?_eq_some hfv
      simp [change_language, h, hv, hfv, change_voice, hvmem, hvpre]
  · refine ⟨by simp [change_language, h], fun hm => absurd hm h, fun _ => ?_⟩
    simp [change_language, h]

/-- Witness for C10: switching the default player to British English
replaces the voice by one starting with `"b"`, and an unknown code
`"xq"` leaves the player unchanged. -/
theorem C10_language_validation_witness :
    pyStartsWith (change_language examplePlayer "b").2.voice "b" = true ∧
    (change_language examplePlayer "xq").2 = examplePlayer :=
  ⟨((C10_language_validation examplePlayer "b").2.1 (by decide)).1,
   (C10_language_validation examplePlayer "xq").2.2 (by decide)⟩

/-- Outcome of the generation loop of `TTSPlayer.generate_audio`
(models.py lines 99-127): the sentence loop ran to completion, the
cancellation flag was observed set (line 109), or the synthesis pipeline
raised (caught at line 125). -/
inductive GenOutcome
  | normal
  | stopped
  | raised
deriving DecidableEq

/-- One sentence handed to the synthesis pipeline: the results its lazy
generator yields (each carrying `result.audio`, possibly `None`), and
whether the generator raises after those yields.  An exception anywhere
inside the `try` block is modelled by truncating `yields` at that point
and setting `raises`. -/
structure SentGen (α : Type) where
  yields : List (Option α)
  raises : Bool

/-- The inner `for result in generator` loop of `generate_audio`
(models.py lines 108-122): `stop` is the value of
`stop_event.is_set()` at the k-th check, `trim` is
`librosa.effects.trim`; returns the queue puts in order, the next check
counter, and the outcome. -/
def genSentence {α : Type} (trim : α → α) (stop : Nat → Bool) :
    Nat → List (Option α) → Bool → List (Option α) × Nat × GenOutcome
  | k, [], raises => ([], k, if raises then GenOutcome.raised else GenOutcome.normal)
  | k, r :: rs, raises =>
    if stop k then ([none], k + 1, GenOutcome.stopped)
    else
      match r with
      | some a =>
        (some (trim a) :: (genSentence trim stop (k + 1) rs raises).1,
         (genSentence trim stop (k + 1) rs raises).2)
      | none => genSentence trim stop (k + 1) rs raises

/-- The outer `for sentence in sentences` loop of `generate_audio`
(models.py lines 103-122): a stop or an exception abandons the remaining
sentences. -/
def genLoop {α : Type} (trim : α → α) (stop : Nat → Bool) :
    Nat → List (SentGen α) → List (Option α) × GenOutcome
  | _, [] => ([], GenOutcome.normal)
  | k, g :: gs =>
    match genSentence trim stop k g.yields g.raises with
    | (ps, k2, GenOutcome.normal) =>
      (ps ++ (genLoop trim stop k2 gs).1, (genLoop trim stop k2 gs).2)
    | (ps, _, GenOutcome.stopped) => (ps, GenOutcome.stopped)
    | (ps, _, GenOutcome.raised) => (ps, GenOutcome.raised)

/-- `TTSPlayer.generate_audio` (models.py lines 99-127) as the sequence
of queue puts it performs: the stop path puts its sentinel inside the
loop (line 110), normal completion puts it at line 124, and the `except`
handler puts it at line 127. -/
def generate_audio {α : Type} (trim : α → α) (stop : Nat → Bool)
    (gens : List (SentGen α)) : List (Option α) :=
  match genLoop trim stop 0 gens with
  | (ps, GenOutcome.normal) => ps ++ [none]
  | (ps, GenOutcome.stopped) => ps
  | (ps, GenOutcome.raised) => ps ++ [none]

/-- Number of `None` sentinels in a list of queue puts. -/
def countNone {α : Type} (l : List (Option α)) : Nat :=
  (l.filter (fun x => x.isNone)).length

theorem countNone_nil {α : Type} : countNone ([] : List (Option α)) = 0 := rfl

theorem countNone_append {α : Type} (a b : List (Option α)) :
    countNone (a ++ b) = countNone a + countNone b := by
  simp [countNone]

theorem countNone_cons_some {α : Type} (a : α) (l : List (Option α)) :
    countNone (some a :: l) = countNone l := by
  simp [countNone]

theorem genSentence_spec {α : Type} (trim : α → α) (stop : Nat → Bool) :
    ∀ (ys : List (Option α)) (k : Nat) (raises : Bool),
      ((genSentence trim stop k ys raises).2.2 = GenOutcome.stopped →
        countNone (genSentence trim stop k ys raises).1 = 1 ∧
        (genSentence trim stop k ys raises).1.getLast? = some none) ∧
      ((genSentence trim stop k ys raises).2.2 ≠ GenOutcome.stopped →
        countNone (genSentence trim stop k ys raises).1 = 0) := by
  intro ys
  induction ys with
  | nil =>
    intro k raises
    constructor
    · intro h
      simp only [genSentence] at h
      cases raises <;> simp at h
    · intro _
      rfl
  | cons r rs ih =>
    intro k raises
    by_cases hs : stop k
    · constructor
      · intro _
        simp [genSentence, hs, countNone]
      · intro h
        simp [genSentence, hs] at h
    · have ih2 := ih (k + 1) raises
      cases r with
      | some a =>
        constructor
        · intro h
          simp only [genSentence, if_neg hs] at h ⊢
          have h1 := ih2.1 h
          refine ⟨by rw [countNone_cons_some, h1.1], ?_⟩
          have hne : (genSentence trim stop (k + 1) rs raises).1 ≠ [] := by
            intro hempty
            have := h1.1
            rw [hempty] at this
            simp [countNone] at this
          rw [List.getLast?_cons, h1.2]
          simp [hne]
        · intro h
          simp only [genSentence, if_neg hs] at h ⊢
          rw [countNone_cons_some]
          exact ih2.2 h
      | none =>
        constructor
        · intro h
          simp only [genSentence, if_neg hs] at h ⊢
          exact ih2.1 h
        · intro h
          simp only [genSentence, if_neg hs] at h ⊢
          exact ih2.2 h

theorem genLoop_spec {α : Type} (trim : α → α) (stop : Nat → Bool) :
    ∀ (gens : List (SentGen α)) (k : Nat),
      ((genLoop trim stop k gens).2 = GenOutcome.stopped →
        countNone (genLoop trim stop k gens).1 = 1 ∧
        (genLoop trim stop k gens).1.getLast? = some none) ∧
      ((genLoop trim stop k gens).2 ≠ GenOutcome.stopped →
        countNone (genLoop trim stop k gens).1 = 0) := by
  intro gens
  induction gens with
  | nil =>
    intro k
    constructor
    · intro h
      simp [genLoop] at h
    · intro _
      rfl
  | cons g gs ih =>
    intro k
    have hsent := genSentence_spec trim stop g.yields k g.raises
    rcases hres : genSentence trim stop k g.yields g.raises with ⟨ps, k2, o⟩
    rw [hres] at hsent
    cases o with
    | normal =>
      have hps : countNone ps = 0 := hsent.2 (by simp)
      have ihk := ih k2
      constructor
      · intro h
        simp only [genLoop, hres] at h ⊢
        have h1 := ihk.1 h
        refine ⟨by rw [countNone_append, hps, h1.1], ?_⟩
        have hne : (genLoop trim stop k2 gs).1 ≠ [] := by
          intro hempty
          have := h1.1
          rw [hempty] at this
          simp [countNone] at this
        rw [List.getLast?_append_of_ne_nil ps hne]
        exact h1.2
      · intro h
        simp only [genLoop, hres] at h ⊢
        rw [countNone_append, hps, ihk.2 h]
    | stopped =>
      constructor
      · intro _
        simp only [genLoop, hres]
        exact hsent.1 rfl
      · intro h
        simp [genLoop, hres] at h
    | raised =>
      have hps : countNone ps = 0 := hsent.2 (by simp)
      constructor
      · intro h
        simp [genLoop, hres] at h
      · intro _
        simp only [genLoop, hres]
        exact hps

/-- C1: every invocation of `generate_audio` - whether the sentence loop
completes normally, the cancellation flag is observed set, or the
synthesis pipeline raises - enqueues exactly one terminal `None`
sentinel, and it is the last item enqueued. -/
theorem C1_sentinel_exactly_once {α : Type} (trim : α → α) (stop : Nat → Bool)
    (gens : List (SentGen α)) :
    countNone (generate_audio trim stop gens) = 1 ∧
    (generate_audio trim stop gens).getLast? = some none := by
  have hspec := genLoop_spec trim stop gens 0
  rcases hres : genLoop trim stop 0 gens with ⟨ps, o⟩
  rw [hres] at hspec
  cases o with
  | normal =>
    have hps : countNone ps = 0 := hspec.2 (by simp)
    constructor
    · simp only [generate_audio, hres]
      rw [countNone_append, hps]
      rfl
    · simp only [generate_audio, hres]
      simp
  | stopped =>
    have h1 := hspec.1 rfl
    constructor
    · simp only [generate_audio, hres]
      exact h1.1
    · simp only [generate_audio, hres]
      exact h1.2
  | raised =>
    have hps : countNone ps = 0 := hspec.2 (by simp)
    constructor
    · simp only [generate_audio, hres]
      rw [countNone_append, hps]
      rfl
    · simp only [generate_audio, hres]
      simp

/-- The consumer-side state of one `TTSPlayer.play_audio` run (models.py
lines 272-327): `chunks` is the local `audio_chunks` history (its length
is `audio_size`), `queue` the remaining items `audio_queue.get()` will
return (`none` is the producer's terminal sentinel), and `backNumber`
the shared `self.back_number` counter. -/
structure PlayState (α : Type) where
  chunks : List α
  queue : List (Option α)
  backNumber : Nat

/-- Result of one iteration of the `while not self.stop_event.is_set()`
loop: playback finished (sentinel or blocked queue), or one chunk was
handed to the audio player. -/
inductive StepResult (α : Type)
  | finished (st : PlayState α)
  | played (audio : α) (st : PlayState α)

/-- `TTSPlayer.back_sentence` (models.py lines 332-334): increment the
pending-back counter. -/
def back_sentence {α : Type} (st : PlayState α) : PlayState α :=
  { st with backNumber := st.backNumber + 1 }

/-- The post-playback bookkeeping of `play_audio` (models.py lines
316-320): with `presses` the number of `back_sentence` calls during this
iteration (the back flag is set exactly when `presses > 0`), the counter
is decremented only when no back was requested and it is positive. -/
def postUpdate (bn presses : Nat) : Nat :=
  if presses = 0 ∧ 0 < bn then bn - 1 else bn + presses

/-- One iteration of the `play_audio` loop (models.py lines 281-320):
clamp the counter (line 285), replay from the history when it is positive
(lines 286-287) or otherwise dequeue (lines 289-294, `none` terminates),
play the chunk, and update the counter.  `dflt` is the default of the
history read, never used because the clamped index is always in range. -/
def playStep {α : Type} (dflt : α) (st : PlayState α) (presses : Nat) : StepResult α :=
  if 0 < min st.backNumber st.chunks.length ∧ 0 < st.chunks.length then
    StepResult.played
      (st.chunks.getD (st.chunks.length - min st.backNumber st.chunks.length) dflt)
      { st with backNumber := postUpdate (min st.backNumber st.chunks.length) presses }
  else
    match st.queue with
    | [] => StepResult.finished st
    | none :: rest => StepResult.finished { st with queue := rest }
    | some a :: rest =>
      StepResult.played a
        { chunks := st.chunks ++ [a], queue := rest,
          backNumber := postUpdate (min st.backNumber st.chunks.length) presses }

/-- C3: at every fetch step the pending back counter is clamped into
`[0, number of chunks played]`, and whenever the clamped counter is
positive the chunk handed to the audio player is exactly the stored
history element at index `len(history) - back_count` - an element of the
history, byte for byte - while the queue and the history are left
untouched (nothing is dequeued, nothing re-synthesized). -/
theorem C3_back_replay_from_history {α : Type} (dflt : α) (st : PlayState α)
    (presses : Nat) :
    min st.backNumber st.chunks.length ≤ st.chunks.length ∧
    (0 < min st.backNumber st.chunks.length →
      playStep dflt st presses =
        StepResult.played
          (st.chunks.getD (st.chunks.length - min st.backNumber st.chunks.length) dflt)
          { st with backNumber := postUpdate (min st.backNumber st.chunks.length) presses } ∧
      st.chunks.getD (st.chunks.length - min st.backNumber st.chunks.length) dflt
        ∈ st.chunks ∧
      back_sentence st = { st with backNumber := st.backNumber + 1 }) := by
  refine ⟨Nat.min_le_right _ _, fun hpos => ?_⟩
  have hlen : 0 < st.chunks.length := lt_of_lt_of_le hpos (Nat.min_le_right _ _)
  refine ⟨by rw [playStep, if_pos ⟨hpos, hlen⟩], ?_, rfl⟩
  have hidx : st.chunks.length - min st.backNumber st.chunks.length < st.chunks.length := by
    omega
  rw [List.getD_eq_getElem?_getD]
  rcases hx : st.chunks[st.chunks.length - min st.backNumber st.chunks.length]? with _ | x
  · rw [List.getElem?_eq_none_iff] at hx
    omega
  · have := List.getElem?_mem hx
    simpa using this

/-- Witness for C3: with two chunks in history and one pending back, the
step replays the second chunk from history and leaves the queue alone. -/
theorem C3_back_replay_from_history_witness :
    0 < min (PlayState.mk [(10 : ℚ), 20] [none] 1).backNumber
        (PlayState.mk [(10 : ℚ), 20] [none] 1).chunks.length ∧
    (playStep (0 : ℚ) (PlayState.mk [(10 : ℚ), 20] [none] 1) 0 =
        StepResult.played
          ((PlayState.mk [(10 : ℚ), 20] [none] 1).chunks.getD
            ((PlayState.mk [(10 : ℚ), 20] [none] 1).chunks.length -
              min (PlayState.mk [(10 : ℚ), 20] [none] 1).backNumber
                (PlayState.mk [(10 : ℚ), 20] [none] 1).chunks.length) 0)
          { PlayState.mk [(10 : ℚ), 20] [none] 1 with
              backNumber :=
                postUpdate
                  (min (PlayState.mk [(10 : ℚ), 20] [none] 1).backNumber
                    (PlayState.mk [(10 : ℚ), 20] [none] 1).chunks.length) 0 } ∧
      (PlayState.mk [(10 : ℚ), 20] [none] 1).chunks.getD
          ((PlayState.mk [(10 : ℚ), 20] [none] 1).chunks.length -
            min (PlayState.mk [(10 : ℚ), 20] [none] 1).backNumber
              (PlayState.mk [(10 : ℚ), 20] [none] 1).chunks.length) 0
        ∈ (PlayState.mk [(10 : ℚ), 20] [none] 1).chunks ∧
      back_sentence (PlayState.mk [(10 : ℚ), 20] [none] 1) =
        { PlayState.mk [(10 : ℚ), 20] [none] 1 with
            backNumber := (PlayState.mk [(10 : ℚ), 20] [none] 1).backNumber + 1 }) :=
  ⟨by decide,
   (C3_back_replay_from_history (0 : ℚ) (PlayState.mk [(10 : ℚ), 20] [none] 1) 0).2
     (by decide)⟩

/-- `np.abs` on one sample. -/
def pyAbs (q : ℚ) : ℚ := if q < 0 then -q else q

/-- The index set `np.where(np.abs(audio) > threshold)[0]` of
`TTSPlayer.trim_silence` (models.py lines 84-89): the indices whose
amplitude exceeds the threshold, in increasing order. -/
def nonSilentIdx (audio : List ℚ) (threshold : ℚ) : List Nat :=
  (List.range audio.length).filter (fun i => threshold < pyAbs (audio.getD i 0))

/-- `TTSPlayer.trim_silence(audio, threshold)` (models.py lines 84-97):
when no sample exceeds the threshold the input is returned unchanged,
otherwise the slice `audio[start_idx : end_idx]` with `start_idx` the
first and `end_idx` one past the last non-silent index. -/
def trim_silence (audio : List ℚ) (threshold : ℚ) : List ℚ :=
  match (nonSilentIdx audio threshold).head?, (nonSilentIdx audio threshold).getLast? with
  | some s, some e => (audio.drop s).take (e + 1 - s)
  | _, _ => audio

theorem mem_nonSilentIdx (audio : List ℚ) (t : ℚ) (i : Nat) :
    i ∈ nonSilentIdx audio t ↔ i < audio.length ∧ t < pyAbs (audio.getD i 0) := by
  simp [nonSilentIdx, List.mem_filter, List.mem_range]

theorem nonSilentIdx_sorted (audio : List ℚ) (t : ℚ) :
    (nonSilentIdx audio t).Pairwise (· < ·) :=
  (List.pairwise_lt_range _).filter _

theorem head?_mem_list {β : Type} {l : List β} {x : β} (h : l.head? = some x) : x ∈ l := by
  cases l with
  | nil => cases h
  | cons a tl =>
    simp only [List.head?_cons, Option.some_inj] at h
    exact h ▸ List.mem_cons_self a tl

theorem getLast?_mem_list {β : Type} {l : List β} {x : β} (h : l.getLast? = some x) : x ∈ l := by
  induction l with
  | nil => cases h
  | cons a tl ih =>
    cases tl with
    | nil =>
      simp only [List.getLast?_singleton, Option.some_inj] at h
      exact h ▸ List.mem_cons_self a []
    | cons b tl2 =>
      rw [List.getLast?_cons_cons] at h
      exact List.mem_cons_of_mem a (ih h)

theorem sorted_head_le {l : List Nat} (hp : l.Pairwise (· < ·)) {s : Nat}
    (hs : l.head? = some s) : ∀ j ∈ l, s ≤ j := by
  cases l with
  | nil => cases hs
  | cons a tl =>
    simp only [List.head?_cons, Option.some_inj] at hs
    subst hs
    intro j hj
    rcases List.mem_cons.mp hj with rfl | hj
    · exact le_refl j
    · exact le_of_lt ((List.pairwise_cons.mp hp).1 j hj)

theorem sorted_getLast_ge {l : List Nat} (hp : l.Pairwise (· < ·)) {e : Nat}
    (he : l.getLast? = some e) : ∀ j ∈ l, j ≤ e := by
  induction l with
  | nil => cases he
  | cons a tl ih =>
    cases tl with
    | nil =>
      simp only [List.getLast?_singleton, Option.some_inj] at he
      subst he
      intro j hj
      rcases List.mem_cons.mp hj with rfl | hj
      · exact le_refl j
      · cases hj
    | cons b tl2 =>
      rw [List.getLast?_cons_cons] at he
      intro j hj
      have hmem : e ∈ b :: tl2 := getLast?_mem_list he
      rcases List.mem_cons.mp hj with rfl | hj
      · exact le_of_lt ((List.pairwise_cons.mp hp).1 e hmem)
      · exact ih (List.pairwise_cons.mp hp).2 he j hj

theorem head?_take_pos {β : Type} (l : List β) (n : Nat) (h : 0 < n) :
    (l.take n).head? = l.head? := by
  cases n with
  | zero => omega
  | succ n =>
    cases l with
    | nil => rfl
    | cons a tl => rfl

/-- C9: `trim_silence` returns the contiguous slice from the first to the
last sample exceeding the threshold - so the first and last samples of
the result both exceed the threshold whenever any sample does, every
sample cut off before (after) the slice is at or below the threshold -
and when no sample exceeds the threshold the input is returned unchanged;
a non-empty input therefore always yields a non-empty output. -/
theorem C9_trim_silence_slice (audio : List ℚ) (t : ℚ) :
    ((∀ i, i < audio.length → ¬ t < pyAbs (audio.getD i 0)) →
      trim_silence audio t = audio) ∧
    (∀ s e, (nonSilentIdx audio t).head? = some s →
        (nonSilentIdx audio t).getLast? = some e →
      trim_silence audio t = (audio.drop s).take (e + 1 - s) ∧
      (trim_silence audio t).head? = some (audio.getD s 0) ∧
      t < pyAbs (audio.getD s 0) ∧
      (trim_silence audio t).getLast? = some (audio.getD e 0) ∧
      t < pyAbs (audio.getD e 0) ∧
      (∀ j, j < s → ¬ t < pyAbs (audio.getD j 0)) ∧
      (∀ j, e < j → j < audio.length → ¬ t < pyAbs (audio.getD j 0))) ∧
    (audio ≠ [] → trim_silence audio t ≠ []) := by
  refine ⟨?_, ?_, ?_⟩
  · intro h
    have hns : nonSilentIdx audio t = [] := by
      apply List.eq_nil_iff_forall_not_mem.mpr
      intro i hi
      rw [mem_nonSilentIdx] at hi
      exact h i hi.1 hi.2
    simp [trim_silence, hns]
  · intro s e hs he
    have hsmem := head?_mem_list hs
    have hemem := getLast?_mem_list he
    have hsprop := (mem_nonSilentIdx audio t s).mp hsmem
    have heprop := (mem_nonSilentIdx audio t e).mp hemem
    have hse : s ≤ e := sorted_head_le (nonSilentIdx_sorted audio t) hs e hemem
    have htrim : trim_silence audio t = (audio.drop s).take (e + 1 - s) := by
      rw [trim_silence, hs, he]
    refine ⟨htrim, ?_, hsprop.2, ?_, heprop.2, ?_, ?_⟩
    · rw [htrim, head?_take_pos _ _ (by omega), List.head?_eq_getElem?, List.getElem?_drop,
        Nat.add_zero, List.getD_eq_getElem?_getD, List.getElem?_eq_getElem hsprop.1]
      rfl
    · have hlenr : ((audio.drop s).take (e + 1 - s)).length = e + 1 - s := by
        simp only [List.length_take, List.length_drop]
        omega
      rw [htrim, List.getLast?_eq_getElem?, hlenr]
      have hidx : e + 1 - s - 1 = e - s := by omega
      rw [hidx, List.getElem?_take_of_lt (by omega), List.getElem?_drop]
      have hse2 : s + (e - s) = e := by omega
      rw [hse2, List.getD_eq_getElem?_getD, List.getElem?_eq_getElem heprop.1]
      rfl
    · intro j hj hcon
      have hjmem : j ∈ nonSilentIdx audio t :=
        (mem_nonSilentIdx audio t j).mpr ⟨by omega, hcon⟩
      have := sorted_head_le (nonSilentIdx_sorted audio t) hs j hjmem
      omega
    · intro j hj hjlen hcon
      have hjmem : j ∈ nonSilentIdx audio t :=
        (mem_nonSilentIdx audio t j).mpr ⟨hjlen, hcon⟩
      have := sorted_getLast_ge (nonSilentIdx_sorted audio t) he j hjmem
      omega
  · intro hne
    rcases h1 : (nonSilentIdx audio t).head? with _ | s
    · have hns : nonSilentIdx audio t = [] := List.head?_eq_none_iff.mp h1
      simp [trim_silence, hns]
      exact hne
    · rcases h2 : (nonSilentIdx audio t).getLast? with _ | e
      · have hns : nonSilentIdx audio t = [] := List.getLast?_eq_none_iff.mp h2
        rw [hns] at h1
        cases h1
      · have hsmem := head?_mem_list h1
        have hemem := getLast?_mem_list h2
        have hsprop := (mem_nonSilentIdx audio t s).mp hsmem
        have hse : s ≤ e := sorted_head_le (nonSilentIdx_sorted audio t) h1 e hemem
        have htrim : trim_silence audio t = (audio.drop s).take (e + 1 - s) := by
          rw [trim_silence, h1, h2]
        rw [htrim]
        intro hempty
        have := congrArg List.length hempty
        simp only [List.length_take, List.length_drop, List.length_nil] at this
        omega

/-- Witness for C9 on the concrete buffer `[0, 1, 0]` with threshold
`0`: the slice keeps exactly the loud middle sample. -/
theorem C9_trim_silence_slice_witness :
    (nonSilentIdx [(0 : ℚ), 1, 0] 0).head? = some 1 ∧
    trim_silence [(0 : ℚ), 1, 0] 0 = ([(0 : ℚ), 1, 0].drop 1).take (1 + 1 - 1) ∧
    (trim_silence [(0 : ℚ), 1, 0] 0).head? = some ([(0 : ℚ), 1, 0].getD 1 0) ∧
    (trim_silence [(0 : ℚ), 1, 0] 0).getLast? = some ([(0 : ℚ), 1, 0].getD 1 0) ∧
    trim_silence [(0 : ℚ), 1, 0] 0 ≠ [] := by
  have h := C9_trim_silence_slice [(0 : ℚ), 1, 0] 0
  have h2 := h.2.1 1 1 (by decide) (by decide)
  exact ⟨by decide, h2.1, h2.2.1, h2.2.2.2.1, h.2.2 (by decide)⟩

/-- A raw synthesis buffer as `to_stereo` (models.py lines 262-270)
classifies it: one-dimensional mono samples or two-channel frames.  Any
other shape raises `ValueError` and is outside this type. -/
inductive RawAudio (α : Type)
  | mono (samples : List α)
  | stereo (samples : List (α × α))

/-- Frame count of a buffer. -/
def frames {α : Type} : RawAudio α → Nat
  | RawAudio.mono s => s.length
  | RawAudio.stereo s => s.length

/-- `TTSPlayer.to_stereo` (models.py lines 262-270): duplicate a mono
buffer into two identical channels (`np.stack([chunk, chunk], axis=1)`),
keep a two-channel buffer as is. -/
def to_stereo {α : Type} : RawAudio α → List (α × α)
  | RawAudio.mono s => s.map (fun x => (x, x))
  | RawAudio.stereo s => s

/-- `TTSPlayer.generate_audio_file` (models.py lines 129-171): for each
sentence the pipeline's results are trimmed (`librosa.effects.trim`,
modelled by the `trim` parameter) and stereo-normalized, then all chunks
are concatenated and written once at `SAMPLE_RATE`; `np.concatenate`
raises `ValueError` on the empty list, the `except` swallows it and no
file is written - modelled by `none`. -/
def generate_audio_file {α : Type} (trim : RawAudio α → RawAudio α)
    (results : List (List (RawAudio α))) : Option (Nat × List (α × α)) :=
  if ((results.flatten).map (fun r => to_stereo (trim r))).isEmpty then none
  else some (SAMPLE_RATE, ((results.flatten).map (fun r => to_stereo (trim r))).flatten)

theorem to_stereo_length {α : Type} (trim : RawAudio α → RawAudio α) (r : RawAudio α) :
    (to_stereo (trim r)).length = frames (trim r) := by
  cases trim r with
  | mono s => simp [to_stereo, frames]
  | stereo s => simp [to_stereo, frames]

/-- C7: on any run that produced at least one synthesis result,
`generate_audio_file` writes exactly one file, at the fixed 24000 Hz
rate, whose content is the concatenation in generation order of the
trimmed, stereo-normalized chunks (mono duplicated into two identical
channels, two-channel kept as is; every frame of the output is a
two-channel frame), and whose total frame count is the sum of the
trimmed chunks' frame counts. -/
theorem C7_generate_file {α : Type} (trim : RawAudio α → RawAudio α)
    (results : List (List (RawAudio α))) (h : results.flatten ≠ []) :
    generate_audio_file trim results =
      some (24000, ((results.flatten).map (fun r => to_stereo (trim r))).flatten) ∧
    (((results.flatten).map (fun r => to_stereo (trim r))).flatten).length =
      ((results.flatten).map (fun r => frames (trim r))).sum ∧
    (∀ s : List α, to_stereo (RawAudio.mono s) = s.map (fun x => (x, x))) ∧
    (∀ s : List (α × α), to_stereo (RawAudio.stereo s) = s) := by
  refine ⟨?_, ?_, fun s => rfl, fun s => rfl⟩
  · rw [generate_audio_file]
    rw [if_neg (by
      simp only [List.isEmpty_iff, List.map_eq_nil_iff]
      exact h)]
    rfl
  · rw [List.length_flatten, List.map_map]
    congr 1
    apply List.map_congr_left
    intro r _
    exact to_stereo_length trim r

/-- Witness for C7 on a one-chunk run with the identity trim. -/
theorem C7_generate_file_witness :
    (([[RawAudio.mono [(0 : ℚ)]]] : List (List (RawAudio ℚ))).flatten ≠ []) ∧
    (generate_audio_file (fun r => r) ([[RawAudio.mono [(0 : ℚ)]]]) =
        some (24000,
          ((([[RawAudio.mono [(0 : ℚ)]]] : List (List (RawAudio ℚ))).flatten).map
            (fun r => to_stereo ((fun r => r) r))).flatten) ∧
      (((([[RawAudio.mono [(0 : ℚ)]]] : List (List (RawAudio ℚ))).flatten).map
          (fun r => to_stereo ((fun r => r) r))).flatten).length =
        ((([[RawAudio.mono [(0 : ℚ)]]] : List (List (RawAudio ℚ))).flatten).map
          (fun r => frames ((fun r => r) r))).sum) := by
  have h := C7_generate_file (fun r : RawAudio ℚ => r) [[RawAudio.mono [(0 : ℚ)]]]
    (by simp)
  exact ⟨by simp, h.1, h.2.1⟩

end Kokorodoki
